import Mathlib

/-!
Verification of the multi-threaded file server (server.c / server.h / client.c).

The development shallowly embeds the server's file-management subsystem:
the filesystem visible to the server is an association list from path
strings to byte contents; the bounded per-file lock table is a list of
entries mirroring the C `file_lock_t` records; the WRITE / GET / RM
protocol flows are pure functions that take the incoming messages and
return the messages sent, the new store, the new lock table and the C
return code.  Byte contents are lists of naturals; network chunks are
lists of such contents (one element per recv/send call).
-/

/-- A byte of file content.  The claims treat contents as opaque byte
sequences, so no upper bound on the byte value is needed. -/
abbrev Byte := Nat

/-- File contents: a sequence of bytes. -/
abbrev Content := List Byte

/-- The store visible to the server: an association list from absolute
path strings to contents.  All operations keep keys unique. -/
abbrev FileSys := List (String × Content)

/-- Lookup of a path in the store; models `stat`/`fopen` succeeding.
First binding wins (keys are kept unique by construction). -/
def lookupFile (fs : FileSys) (p : String) : Option Content :=
  match fs with
  | [] => none
  | (q, c) :: rest => if q = p then some c else lookupFile rest p

/-- Removal of a path from the store; models `unlink`. -/
def unlinkFile (fs : FileSys) (p : String) : FileSys :=
  match fs with
  | [] => []
  | (q, c) :: rest => if q = p then unlinkFile rest p else (q, c) :: unlinkFile rest p

/-- Creation or truncation-and-write of a file; models `fopen(path, "wb")`
followed by writing `c`. -/
def writeFile (fs : FileSys) (p : String) (c : Content) : FileSys :=
  (p, c) :: unlinkFile fs p

/-- Atomic rename; models `rename(src, dst)` (the destination, if any, is
replaced). -/
def renameFile (fs : FileSys) (src dst : String) : FileSys :=
  match lookupFile fs src with
  | none => fs
  | some c => writeFile (unlinkFile fs src) dst c

/-- The buffer size used by every transfer loop (`BUFFER_SIZE` in server.c). -/
def BUFFER_SIZE : Nat := 8196

/-- The server root directory (`ROOT_DIR` in server.c). -/
def ROOT_DIR : String := "./server_root"

/-- The lock table capacity (`MAX_FILE_LOCKS` in server.c). -/
def MAX_FILE_LOCKS : Nat := 100

/-- Resolution of a client path, `snprintf(full_path, ..., "%s/%s", ROOT_DIR,
remote_path)` in the handlers. -/
def full_path (remote_path : String) : String :=
  ROOT_DIR ++ "/" ++ remote_path

/-- The single-quote character, used by several server responses. -/
def squoteChar : Char := Char.ofNat 39

/-- A string wrapped in single quotes, as produced by the `"...'%s'"`
format strings in server.c. -/
def quoted (s : String) : String :=
  String.singleton squoteChar ++ s ++ String.singleton squoteChar

/-!
Decimal numerals.  The version suffix `"%s.v%d"` renders the version
number with the C `%d` conversion, which agrees with `Nat.repr` for
nonnegative values.  The development below proves that decimal rendering
is injective and nonempty, which underpins the version-probe arguments.
-/

theorem toDigitsCore_acc (f : Nat) : ∀ (n : Nat) (ds : List Char),
    Nat.toDigitsCore 10 f n ds = Nat.toDigitsCore 10 f n [] ++ ds := by
  induction f with
  | zero => intro n ds; simp [Nat.toDigitsCore]
  | succ f ih =>
    intro n ds
    simp only [Nat.toDigitsCore]
    by_cases h : n / 10 = 0
    · simp [h]
    · simp only [h, if_false]
      rw [ih (n / 10) [Nat.digitChar (n % 10)], ih (n / 10) (Nat.digitChar (n % 10) :: ds)]
      simp

theorem toDigitsCore_succ (f n : Nat) (ds : List Char) :
    Nat.toDigitsCore 10 (f + 1) n ds =
      if n / 10 = 0 then Nat.digitChar (n % 10) :: ds
      else Nat.toDigitsCore 10 f (n / 10) (Nat.digitChar (n % 10) :: ds) := by
  rfl

theorem toDigitsCore_fuel (n : Nat) : ∀ (f : Nat) (ds : List Char), n < f →
    Nat.toDigitsCore 10 f n ds = Nat.toDigits 10 n ++ ds := by
  induction n using Nat.strong_induction_on with
  | _ n ih =>
    intro f ds hf
    match f, hf with
    | f + 1, hf =>
      rw [toDigitsCore_succ]
      by_cases h : n / 10 = 0
      · simp only [h, if_true]
        have h2 : Nat.toDigits 10 n = [Nat.digitChar (n % 10)] := by
          simp [Nat.toDigits, toDigitsCore_succ, h]
        rw [h2]; rfl
      · simp only [h, if_false]
        have hlt : n / 10 < n := Nat.div_lt_self (by omega) (by omega)
        rw [ih (n / 10) hlt f (Nat.digitChar (n % 10) :: ds) (by omega)]
        have h3 : Nat.toDigits 10 n = Nat.toDigits 10 (n / 10) ++ [Nat.digitChar (n % 10)] := by
          show Nat.toDigitsCore 10 (n + 1) n [] = _
          rw [toDigitsCore_succ]
          simp only [h, if_false]
          rw [ih (n / 10) hlt n [Nat.digitChar (n % 10)] (by omega)]
        rw [h3]
        simp

theorem toDigits_structure (n : Nat) :
    Nat.toDigits 10 n =
      (if n < 10 then [] else Nat.toDigits 10 (n / 10)) ++ [Nat.digitChar (n % 10)] := by
  by_cases h : n < 10
  · have h0 : n / 10 = 0 := Nat.div_eq_of_lt h
    simp only [h, if_true, List.nil_append]
    show Nat.toDigitsCore 10 (n + 1) n [] = _
    rw [toDigitsCore_succ]; simp [h0]
  · have h0 : ¬(n / 10 = 0) := by omega
    simp only [h, if_false]
    show Nat.toDigitsCore 10 (n + 1) n [] = _
    rw [toDigitsCore_succ]
    simp only [h0, if_false]
    have hlt : n / 10 < n := Nat.div_lt_self (by omega) (by omega)
    exact toDigitsCore_fuel (n / 10) n [Nat.digitChar (n % 10)] (by omega)

theorem toDigits_ne_nil (n : Nat) : Nat.toDigits 10 n ≠ [] := by
  rw [toDigits_structure]
  simp

theorem digitChar_toNat (a : Nat) (h : a < 10) : (Nat.digitChar a).toNat = 48 + a := by
  interval_cases a <;> rfl

theorem toDigits_inj (m : Nat) : ∀ n : Nat, Nat.toDigits 10 m = Nat.toDigits 10 n → m = n := by
  induction m using Nat.strong_induction_on with
  | _ m ih =>
    intro n h
    rw [toDigits_structure m, toDigits_structure n] at h
    obtain ⟨hpre, hlast⟩ := List.append_inj' h rfl
    have hmod : m % 10 = n % 10 := by
      have hc : Nat.digitChar (m % 10) = Nat.digitChar (n % 10) := by
        simpa using hlast
      have hc2 : (Nat.digitChar (m % 10)).toNat = (Nat.digitChar (n % 10)).toNat :=
        congrArg Char.toNat hc
      have h1 := digitChar_toNat (m % 10) (Nat.mod_lt m (by omega))
      have h2 := digitChar_toNat (n % 10) (Nat.mod_lt n (by omega))
      omega
    by_cases hm : m < 10 <;> by_cases hn : n < 10
    · omega
    · rw [if_pos hm, if_neg hn] at hpre
      exact absurd hpre.symm (toDigits_ne_nil (n / 10))
    · rw [if_neg hm, if_pos hn] at hpre
      exact absurd hpre (toDigits_ne_nil (m / 10))
    · rw [if_neg hm, if_neg hn] at hpre
      have hdiv : m / 10 = n / 10 :=
        ih (m / 10) (Nat.div_lt_self (by omega) (by omega)) (n / 10) hpre
      omega

theorem repr_inj {m n : Nat} (h : Nat.repr m = Nat.repr n) : m = n := by
  have hd : Nat.toDigits 10 m = Nat.toDigits 10 n := congrArg String.data h
  exact toDigits_inj m n hd

theorem repr_length_pos (n : Nat) : 0 < (Nat.repr n).length := by
  show 0 < (Nat.toDigits 10 n).asString.length
  have : (Nat.toDigits 10 n).asString.length = (Nat.toDigits 10 n).length := rfl
  rw [this]
  cases h : Nat.toDigits 10 n with
  | nil => exact absurd h (toDigits_ne_nil n)
  | cons a l => simp

/-!
Version engine (server.c lines 139-176).
-/

/-- The name of backup number `n` of `filepath`:
`snprintf(version_path, ..., "%s.v%d", filepath, version)`. -/
def verName (filepath : String) (n : Nat) : String :=
  filepath ++ ".v" ++ Nat.repr n

/-- The probe loop of `get_next_version`: starting at candidate `n`, return
the first version number whose backup file does not exist.  The C loop is
unbounded; the embedding carries a fuel argument, and
`get_next_version_isSome` below shows that a fuel of `fs.length + 1`
always suffices, so the fuel never alters the modelled behaviour. -/
def probe_version (fs : FileSys) (filepath : String) : Nat → Nat → Option Nat
  | 0, _ => none
  | fuel + 1, n =>
    if lookupFile fs (verName filepath n) = none then some n
    else probe_version fs filepath fuel (n + 1)

/-- Embedding of `get_next_version` (server.c lines 139-152): probe
`path.v1, path.v2, ...` sequentially and return the first free number. -/
def get_next_version (fs : FileSys) (filepath : String) : Option Nat :=
  probe_version fs filepath (fs.length + 1) 1

/-- Embedding of `save_version` (server.c lines 156-176): a no-op when the
file does not exist, otherwise an atomic rename of the current content to
the next free backup name.  (In the model the rename itself cannot fail;
the C `-1` branch corresponds to an I/O failure of `rename`.) -/
def save_version (fs : FileSys) (filepath : String) : Option FileSys :=
  if lookupFile fs filepath = none then some fs
  else
    match get_next_version fs filepath with
    | none => none
    | some v => some (renameFile fs filepath (verName filepath v))

theorem lookupFile_unlinkFile_self (fs : FileSys) (p : String) :
    lookupFile (unlinkFile fs p) p = none := by
  induction fs with
  | nil => rfl
  | cons e rest ih =>
    obtain ⟨q, c⟩ := e
    by_cases h : q = p
    · simpa [unlinkFile, h] using ih
    · simpa [unlinkFile, lookupFile, h] using ih

theorem lookupFile_unlinkFile_ne (fs : FileSys) (p q : String) (h : q ≠ p) :
    lookupFile (unlinkFile fs p) q = lookupFile fs q := by
  have hpq : ¬(p = q) := fun hc => h hc.symm
  induction fs with
  | nil => rfl
  | cons e rest ih =>
    obtain ⟨r, c⟩ := e
    by_cases hr : r = p
    · subst hr
      simp [unlinkFile, lookupFile, hpq, ih]
    · by_cases hq : r = q
      · simp [unlinkFile, lookupFile, hr, hq, h]
      · simp [unlinkFile, lookupFile, hr, hq, ih]

theorem lookupFile_writeFile_self (fs : FileSys) (p : String) (c : Content) :
    lookupFile (writeFile fs p c) p = some c := by
  simp [writeFile, lookupFile]

theorem lookupFile_writeFile_ne (fs : FileSys) (p q : String) (c : Content) (h : q ≠ p) :
    lookupFile (writeFile fs p c) q = lookupFile fs q := by
  have : ¬(p = q) := fun hc => h hc.symm
  simp [writeFile, lookupFile, this, lookupFile_unlinkFile_ne fs p q h]

theorem unlinkFile_idem (fs : FileSys) (p : String) :
    unlinkFile (unlinkFile fs p) p = unlinkFile fs p := by
  induction fs with
  | nil => rfl
  | cons e rest ih =>
    obtain ⟨q, c⟩ := e
    by_cases hq : q = p
    · simp [unlinkFile, hq, ih]
    · simp [unlinkFile, hq, ih]

theorem writeFile_writeFile (fs : FileSys) (p : String) (c d : Content) :
    writeFile (writeFile fs p c) p d = writeFile fs p d := by
  simp [writeFile, unlinkFile, unlinkFile_idem]

theorem string_data_inj {s t : String} (h : s.data = t.data) : s = t := by
  cases s
  cases t
  exact congrArg String.mk h

/-- Distinct version numbers give distinct backup names. -/
theorem verName_inj (p : String) {m n : Nat} (h : verName p m = verName p n) : m = n := by
  apply repr_inj
  have hd : (verName p m).data = (verName p n).data := congrArg String.data h
  simp only [verName, String.data_append] at hd
  exact string_data_inj (List.append_cancel_left hd)

/-- A backup name is never the base name (it is strictly longer). -/
theorem verName_ne_base (p : String) (n : Nat) : verName p n ≠ p := by
  intro h
  have hlen : (verName p n).length = p.length := congrArg String.length h
  have h2 : (".v" : String).length = 2 := rfl
  have h1 : (verName p n).length = p.length + (".v" : String).length + (Nat.repr n).length := by
    simp [verName, String.length_append]
  have := repr_length_pos n
  omega

/-- Backup names of distinct base names with equal lengths coincide only if
the bases coincide; more directly, a backup name determines its base when
the suffix length matches.  Only injectivity in the version number and
disjointness from the base are needed below. -/
theorem verName_ne_of_ne (p : String) {m n : Nat} (h : m ≠ n) :
    verName p m ≠ verName p n :=
  fun hc => h (verName_inj p hc)

theorem lookupFile_isSome_mem (fs : FileSys) (p : String)
    (h : (lookupFile fs p).isSome) : p ∈ fs.map Prod.fst := by
  induction fs with
  | nil => simp [lookupFile] at h
  | cons e rest ih =>
    obtain ⟨q, c⟩ := e
    by_cases hq : q = p
    · simp [hq]
    · simp only [lookupFile, hq, if_false] at h
      simp [ih h]

theorem probe_version_none (fs : FileSys) (p : String) :
    ∀ (fuel start : Nat), probe_version fs p fuel start = none →
      ∀ k, start ≤ k → k < start + fuel → (lookupFile fs (verName p k)).isSome := by
  intro fuel
  induction fuel with
  | zero => intro start _ k h1 h2; omega
  | succ fuel ih =>
    intro start hnone k h1 h2
    simp only [probe_version] at hnone
    by_cases h : lookupFile fs (verName p start) = none
    · simp [h] at hnone
    · rw [if_neg h] at hnone
      by_cases hk : k = start
      · rw [hk]
        exact Option.isSome_iff_ne_none.mpr h
      · exact ih (start + 1) hnone k (by omega) (by omega)

/-- The probe always succeeds within `fs.length + 1` candidates: the names
`p.v1 .. p.v(fs.length+1)` are pairwise distinct, so they cannot all be
keys of a store with only `fs.length` entries. -/
theorem get_next_version_isSome (fs : FileSys) (p : String) :
    (get_next_version fs p).isSome := by
  rw [Option.isSome_iff_ne_none]
  intro hnone
  have hall := probe_version_none fs p (fs.length + 1) 1 hnone
  set L : List String := (List.range (fs.length + 1)).map (fun k => verName p (k + 1)) with hL
  have hnodup : L.Nodup := by
    rw [hL]
    refine List.Nodup.map ?_ (List.nodup_range _)
    intro a b hab
    have := verName_inj p hab
    omega
  have hsub : L ⊆ fs.map Prod.fst := by
    intro x hx
    rw [hL] at hx
    simp only [List.mem_map, List.mem_range] at hx
    obtain ⟨k, hk, rfl⟩ := hx
    exact lookupFile_isSome_mem fs _ (hall (k + 1) (by omega) (by omega))
  have hcard : L.length ≤ (fs.map Prod.fst).length := by
    have h1 : L.toFinset.card = L.length := List.toFinset_card_of_nodup hnodup
    have h2 : L.toFinset ⊆ (fs.map Prod.fst).toFinset := by
      intro x hx
      rw [List.mem_toFinset] at hx ⊢
      exact hsub hx
    have h3 := Finset.card_le_card h2
    have h4 := List.toFinset_card_le (fs.map Prod.fst)
    omega
  have hlen : L.length = fs.length + 1 := by simp [hL]
  simp only [List.length_map] at hcard
  omega

/-- The probe returns the least free version number at or above `start`,
provided the fuel reaches it. -/
theorem probe_version_least (fs : FileSys) (p : String) :
    ∀ (fuel start N : Nat), start ≤ N → N - start < fuel →
      (∀ k, start ≤ k → k < N → (lookupFile fs (verName p k)).isSome) →
      lookupFile fs (verName p N) = none →
      probe_version fs p fuel start = some N := by
  intro fuel
  induction fuel with
  | zero => intro start N h1 h2; omega
  | succ fuel ih =>
    intro start N h1 h2 hbusy hfree
    simp only [probe_version]
    by_cases hs : start = N
    · rw [hs, if_pos hfree]
    · have hsome := hbusy start (by omega) (by omega)
      rw [if_neg (by rw [Option.isSome_iff_ne_none] at hsome; exact hsome)]
      exact ih (start + 1) N (by omega) (by omega) (fun k hk1 hk2 => hbusy k (by omega) hk2) hfree

/-!
Lock manager (server.c lines 27-91).  An entry mirrors `file_lock_t`; the
pthread mutex object itself is identified by its slot index, which is what
`get_file_lock` returns a pointer to.
-/

/-- One slot of the global lock table (`file_lock_t`). -/
structure FileLock where
  filepath : String
  in_use : Bool
deriving DecidableEq

/-- The global lock table `file_locks[MAX_FILE_LOCKS]`. -/
abbrev LockTable := List FileLock

/-- Embedding of `init_file_locks` (server.c lines 44-50): all slots free
with empty paths. -/
def init_file_locks : LockTable :=
  List.replicate MAX_FILE_LOCKS ⟨"", false⟩

/-- First loop of `get_file_lock` (and the scan of `release_file_lock`):
index of the first in-use entry holding `filepath`. -/
def find_inuse_idx (filepath : String) : LockTable → Option Nat
  | [] => none
  | e :: rest =>
    if e.in_use = true ∧ e.filepath = filepath then some 0
    else (find_inuse_idx filepath rest).map (· + 1)

/-- Second loop of `get_file_lock`: index of the first free slot. -/
def find_free_idx : LockTable → Option Nat
  | [] => none
  | e :: rest =>
    if e.in_use = false then some 0
    else (find_free_idx rest).map (· + 1)

/-- Embedding of `get_file_lock` (server.c lines 54-76): return the slot
index of the entry for `filepath` (the address of its mutex) together
with the updated table, or `none` (`NULL`) when no entry exists and the
table is full. -/
def get_file_lock (t : LockTable) (filepath : String) : Option (Nat × LockTable) :=
  match find_inuse_idx filepath t with
  | some i => some (i, t)
  | none =>
    match find_free_idx t with
    | some i => some (i, t.set i ⟨filepath, true⟩)
    | none => none

/-- Embedding of `release_file_lock` (server.c lines 79-91): clear the
first in-use entry holding `filepath`, if any. -/
def release_file_lock (t : LockTable) (filepath : String) : LockTable :=
  match find_inuse_idx filepath t with
  | some i => t.set i ⟨"", false⟩
  | none => t

/-- The paths of the in-use entries, in slot order. -/
def inusePaths (t : LockTable) : List String :=
  (t.filter (fun e => e.in_use)).map (fun e => e.filepath)

/-- The table invariant: no two in-use entries carry the same path. -/
def tableInv (t : LockTable) : Prop :=
  (inusePaths t).Nodup

theorem find_inuse_idx_none (filepath : String) (t : LockTable)
    (h : find_inuse_idx filepath t = none) :
    ∀ e ∈ t, ¬(e.in_use = true ∧ e.filepath = filepath) := by
  induction t with
  | nil => intro e he; simp at he
  | cons a rest ih =>
    intro e he
    simp only [find_inuse_idx] at h
    by_cases ha : a.in_use = true ∧ a.filepath = filepath
    · simp [ha] at h
    · rw [if_neg ha] at h
      rcases List.mem_cons.mp he with rfl | hmem
      · exact ha
      · exact ih (by simpa using h) e hmem

theorem find_inuse_idx_none_not_mem (filepath : String) (t : LockTable)
    (h : find_inuse_idx filepath t = none) : filepath ∉ inusePaths t := by
  intro hmem
  simp only [inusePaths, List.mem_map, List.mem_filter] at hmem
  obtain ⟨e, ⟨hmem2, huse⟩, hpath⟩ := hmem
  exact find_inuse_idx_none filepath t h e hmem2 ⟨huse, hpath⟩

theorem find_inuse_idx_some (filepath : String) (t : LockTable) :
    ∀ i, find_inuse_idx filepath t = some i →
      ∃ e, t[i]? = some e ∧ e.in_use = true ∧ e.filepath = filepath := by
  induction t with
  | nil => intro i h; simp [find_inuse_idx] at h
  | cons a rest ih =>
    intro i h
    simp only [find_inuse_idx] at h
    by_cases ha : a.in_use = true ∧ a.filepath = filepath
    · rw [if_pos ha] at h
      cases h
      exact ⟨a, by simp, ha⟩
    · rw [if_neg ha] at h
      match hfind : find_inuse_idx filepath rest with
      | none => rw [hfind] at h; simp at h
      | some j =>
        rw [hfind] at h
        simp only [Option.map] at h
        cases h
        obtain ⟨e, he1, he2⟩ := ih j hfind
        exact ⟨e, by rw [List.getElem?_cons_succ]; exact he1, he2⟩

theorem find_free_idx_some (t : LockTable) :
    ∀ i, find_free_idx t = some i → ∃ e, t[i]? = some e ∧ e.in_use = false := by
  induction t with
  | nil => intro i h; simp [find_free_idx] at h
  | cons a rest ih =>
    intro i h
    simp only [find_free_idx] at h
    by_cases ha : a.in_use = false
    · rw [if_pos ha] at h
      cases h
      exact ⟨a, by simp, ha⟩
    · rw [if_neg ha] at h
      match hfind : find_free_idx rest with
      | none => rw [hfind] at h; simp at h
      | some j =>
        rw [hfind] at h
        simp only [Option.map] at h
        cases h
        obtain ⟨e, he1, he2⟩ := ih j hfind
        exact ⟨e, by rw [List.getElem?_cons_succ]; exact he1, he2⟩

theorem find_free_idx_none (t : LockTable) (h : find_free_idx t = none) :
    ∀ e ∈ t, e.in_use = true := by
  induction t with
  | nil => intro e he; simp at he
  | cons a rest ih =>
    intro e he
    simp only [find_free_idx] at h
    by_cases ha : a.in_use = false
    · simp [ha] at h
    · rw [if_neg ha] at h
      rcases List.mem_cons.mp he with rfl | hmem
      · simpa using ha
      · exact ih (by simpa using h) e hmem

theorem mem_inusePaths_set (t : LockTable) (v : FileLock) :
    ∀ (i : Nat) (x : String), x ∈ inusePaths (t.set i v) →
      (v.in_use = true ∧ x = v.filepath) ∨ x ∈ inusePaths t := by
  induction t with
  | nil => intro i x hx; simp [inusePaths] at hx
  | cons a rest ih =>
    intro i x hx
    match i with
    | 0 =>
      simp only [List.set_cons_zero] at hx
      by_cases hv : v.in_use = true
      · simp only [inusePaths, List.filter_cons, hv, if_true] at hx
        rcases List.mem_cons.mp hx with rfl | hmem
        · exact Or.inl ⟨hv, rfl⟩
        · right
          by_cases ha : a.in_use = true
          · simp only [inusePaths, List.filter_cons, ha, if_true]
            exact List.mem_cons_of_mem _ hmem
          · simp only [inusePaths, List.filter_cons]
            simp only [Bool.not_eq_true] at ha
            simp [ha, hmem]
      · right
        simp only [Bool.not_eq_true] at hv
        simp only [inusePaths, List.filter_cons, hv] at hx
        by_cases ha : a.in_use = true
        · simp only [inusePaths, List.filter_cons, ha, if_true]
          exact List.mem_cons_of_mem _ (by simpa using hx)
        · simp only [Bool.not_eq_true] at ha
          simp only [inusePaths, List.filter_cons, ha]
          simpa using hx
    | i + 1 =>
      simp only [List.set_cons_succ] at hx
      by_cases ha : a.in_use = true
      · simp only [inusePaths, List.filter_cons, ha, if_true] at hx ⊢
        rcases List.mem_cons.mp hx with rfl | hmem
        · exact Or.inr (List.mem_cons_self _ _)
        · rcases ih i x (by simpa [inusePaths] using hmem) with h1 | h2
          · exact Or.inl h1
          · exact Or.inr (List.mem_cons_of_mem _ (by simpa [inusePaths] using h2))
      · simp only [Bool.not_eq_true] at ha
        simp only [inusePaths, List.filter_cons, ha] at hx ⊢
        rcases ih i x (by simpa [inusePaths] using hx) with h1 | h2
        · exact Or.inl h1
        · exact Or.inr (by simpa [inusePaths] using h2)

theorem tableInv_iff (t : LockTable) : tableInv t ↔ (inusePaths t).Nodup := Iff.rfl

theorem inusePaths_cons_true (a : FileLock) (rest : LockTable) (h : a.in_use = true) :
    inusePaths (a :: rest) = a.filepath :: inusePaths rest := by
  simp [inusePaths, List.filter_cons, h]

theorem inusePaths_cons_false (a : FileLock) (rest : LockTable) (h : a.in_use = false) :
    inusePaths (a :: rest) = inusePaths rest := by
  simp [inusePaths, List.filter_cons, h]

theorem inusePaths_mk_cons (p : String) (rest : LockTable) :
    inusePaths (⟨p, true⟩ :: rest) = p :: inusePaths rest := by
  simp [inusePaths, List.filter_cons]

theorem inusePaths_set_nodup (t : LockTable) (p : String) :
    ∀ i : Nat, tableInv t → p ∉ inusePaths t →
      tableInv (t.set i ⟨p, true⟩) := by
  induction t with
  | nil => intro i _ _; exact List.nodup_nil
  | cons a rest ih =>
    intro i hinv hnot
    match i with
    | 0 =>
      rw [List.set_cons_zero]
      rw [tableInv_iff, inusePaths_mk_cons, List.nodup_cons]
      by_cases ha : a.in_use = true
      · have hinv2 := (tableInv_iff _).mp hinv
        rw [inusePaths_cons_true a rest ha, List.nodup_cons] at hinv2
        constructor
        · intro hc
          exact hnot (by rw [inusePaths_cons_true a rest ha]; exact List.mem_cons_of_mem _ hc)
        · exact hinv2.2
      · have ha2 : a.in_use = false := by simpa using ha
        have hinv2 := (tableInv_iff _).mp hinv
        rw [inusePaths_cons_false a rest ha2] at hinv2
        constructor
        · intro hc
          exact hnot (by rw [inusePaths_cons_false a rest ha2]; exact hc)
        · exact hinv2
    | i + 1 =>
      rw [List.set_cons_succ]
      by_cases ha : a.in_use = true
      · rw [tableInv_iff, inusePaths_cons_true a _ ha, List.nodup_cons]
        have hinv2 := (tableInv_iff _).mp hinv
        rw [inusePaths_cons_true a rest ha, List.nodup_cons] at hinv2
        have hnot2 : p ∉ inusePaths rest := by
          intro hc
          exact hnot (by rw [inusePaths_cons_true a rest ha]; exact List.mem_cons_of_mem _ hc)
        have hnotp : a.filepath ≠ p := by
          intro hc
          exact hnot (by rw [inusePaths_cons_true a rest ha, hc]; exact List.mem_cons_self _ _)
        constructor
        · intro hc
          rcases mem_inusePaths_set rest ⟨p, true⟩ i a.filepath hc with ⟨_, hpe⟩ | hmem
          · exact hnotp hpe
          · exact hinv2.1 hmem
        · exact ih i hinv2.2 hnot2
      · have ha2 : a.in_use = false := by simpa using ha
        rw [tableInv_iff, inusePaths_cons_false a _ ha2]
        have hinv2 := (tableInv_iff _).mp hinv
        rw [inusePaths_cons_false a rest ha2] at hinv2
        have hnot2 : p ∉ inusePaths rest := by
          intro hc
          exact hnot (by rw [inusePaths_cons_false a rest ha2]; exact hc)
        exact ih i hinv2 hnot2

theorem inusePaths_set_clear_sublist (t : LockTable) :
    ∀ i : Nat, (inusePaths (t.set i ⟨"", false⟩)).Sublist (inusePaths t) := by
  induction t with
  | nil => intro i; simp [inusePaths]
  | cons a rest ih =>
    intro i
    match i with
    | 0 =>
      simp only [List.set_cons_zero]
      by_cases ha : a.in_use = true
      · simp only [inusePaths, List.filter_cons, ha, if_true]
        have : (inusePaths (a :: rest)) = a.filepath :: inusePaths rest := by
          simp [inusePaths, List.filter_cons, ha]
        exact List.sublist_cons_of_sublist _ (by simp [inusePaths])
      · simp only [Bool.not_eq_true] at ha
        simp [inusePaths, List.filter_cons, ha]
    | i + 1 =>
      simp only [List.set_cons_succ]
      by_cases ha : a.in_use = true
      · simp only [inusePaths, List.filter_cons, ha, if_true]
        exact List.Sublist.cons₂ _ (ih i)
      · simp only [Bool.not_eq_true] at ha
        simp only [inusePaths, List.filter_cons, ha]
        exact ih i

/-- Acquiring preserves the one-entry-per-path invariant. -/
theorem get_file_lock_preserves_inv (t : LockTable) (p : String)
    (hinv : tableInv t) :
    ∀ i u, get_file_lock t p = some (i, u) → tableInv u := by
  intro i u h
  simp only [get_file_lock] at h
  match hfind : find_inuse_idx p t with
  | some j =>
    rw [hfind] at h
    simp only [Option.some.injEq, Prod.mk.injEq] at h
    rw [← h.2]
    exact hinv
  | none =>
    rw [hfind] at h
    match hfree : find_free_idx t with
    | some j =>
      rw [hfree] at h
      simp only [Option.some.injEq, Prod.mk.injEq] at h
      rw [← h.2]
      exact inusePaths_set_nodup t p j hinv (find_inuse_idx_none_not_mem p t hfind)
    | none => rw [hfree] at h; cases h

/-- Forgetting preserves the one-entry-per-path invariant. -/
theorem release_file_lock_preserves_inv (t : LockTable) (p : String)
    (hinv : tableInv t) : tableInv (release_file_lock t p) := by
  simp only [release_file_lock]
  match hfind : find_inuse_idx p t with
  | some j => exact (inusePaths_set_clear_sublist t j).nodup hinv
  | none => exact hinv

/-- One abstract lock-table operation: an `acquire` (`get_file_lock`) or a
`forget` (`release_file_lock`). -/
inductive LockOp where
  | acquire (p : String)
  | forget (p : String)
deriving DecidableEq

/-- State change caused by one operation (a failed acquire leaves the
table unchanged). -/
def apply_op (t : LockTable) : LockOp → LockTable
  | .acquire p =>
    match get_file_lock t p with
    | none => t
    | some (_, u) => u
  | .forget p => release_file_lock t p

/-- State change of a whole interleaving of operations. -/
def apply_ops (t : LockTable) (ops : List LockOp) : LockTable :=
  ops.foldl apply_op t

theorem apply_op_preserves_inv (t : LockTable) (op : LockOp)
    (hinv : tableInv t) : tableInv (apply_op t op) := by
  match op with
  | .acquire p =>
    simp only [apply_op]
    match hg : get_file_lock t p with
    | none => exact hinv
    | some (i, u) => exact get_file_lock_preserves_inv t p hinv i u hg
  | .forget p => exact release_file_lock_preserves_inv t p hinv

theorem apply_ops_preserves_inv (ops : List LockOp) :
    ∀ t : LockTable, tableInv t → tableInv (apply_ops t ops) := by
  induction ops with
  | nil => intro t h; exact h
  | cons op rest ih =>
    intro t h
    exact ih (apply_op t op) (apply_op_preserves_inv t op h)

/-- After a successful acquire, the table holds an in-use entry for the
path at the returned slot. -/
theorem get_file_lock_entry (t : LockTable) (p : String) :
    ∀ i u, get_file_lock t p = some (i, u) → find_inuse_idx p u = some i := by
  have haux : ∀ (s : LockTable) (j : Nat) (e : FileLock), find_inuse_idx p s = none →
      s[j]? = some e → find_inuse_idx p (s.set j ⟨p, true⟩) = some j := by
    intro s
    induction s with
    | nil => intro j e _ hj; simp at hj
    | cons a rest ih =>
      intro j e hnone hj
      simp only [find_inuse_idx] at hnone
      by_cases ha : a.in_use = true ∧ a.filepath = p
      · simp [ha] at hnone
      · rw [if_neg ha] at hnone
        match j with
        | 0 =>
          rw [List.set_cons_zero]
          simp [find_inuse_idx]
        | j + 1 =>
          rw [List.set_cons_succ]
          simp only [find_inuse_idx]
          rw [if_neg ha]
          have hj2 : rest[j]? = some e := by
            rw [List.getElem?_cons_succ] at hj
            exact hj
          rw [ih j e (by simpa using hnone) hj2]
          rfl
  intro i u h
  simp only [get_file_lock] at h
  match hfind : find_inuse_idx p t with
  | some j =>
    rw [hfind] at h
    simp only [Option.some.injEq, Prod.mk.injEq] at h
    rw [← h.2, ← h.1]
    exact hfind
  | none =>
    rw [hfind] at h
    match hfree : find_free_idx t with
    | some j =>
      rw [hfree] at h
      simp only [Option.some.injEq, Prod.mk.injEq] at h
      obtain ⟨e, he1, _⟩ := find_free_idx_some t j hfree
      rw [← h.2, ← h.1]
      exact haux t j e hfind he1
    | none => rw [hfree] at h; cases h

/-- A second acquire of the same path returns the same slot and leaves the
table unchanged. -/
theorem get_file_lock_stable (t : LockTable) (p : String) (i : Nat) (u : LockTable)
    (h : get_file_lock t p = some (i, u)) : get_file_lock u p = some (i, u) := by
  simp only [get_file_lock, get_file_lock_entry t p i u h]

/-- When a matching in-use entry exists, acquire returns an existing slot
with that path and does not modify the table. -/
theorem get_file_lock_existing (t : LockTable) (p : String)
    (hmem : p ∈ inusePaths t) :
    ∃ i, get_file_lock t p = some (i, t) ∧
      ∃ e, t[i]? = some e ∧ e.in_use = true ∧ e.filepath = p := by
  simp only [get_file_lock]
  match hfind : find_inuse_idx p t with
  | some j => exact ⟨j, rfl, find_inuse_idx_some p t j hfind⟩
  | none => exact absurd hmem (find_inuse_idx_none_not_mem p t hfind)

/-!
Protocol layer (server.c lines 177-492).  Each handler is a pure function
of the store, the lock table, and the messages received on the socket; it
returns the messages sent, the updated state, and the C return code.
Message payloads are strings; file data travels as lists of byte chunks,
one chunk per `recv`/`send` call (a chunk models the byte count `n`
returned by one call; an empty chunk models `n <= 0`).
-/

/-- C `isspace` (default locale): the six standard whitespace bytes. -/
def isSpaceC (c : Char) : Bool :=
  c = ' ' || c = '\t' || c = '\n' || c = '\x0b' || c = '\x0c' || c = '\r'

/-- Numeric value of a maximal run of leading decimal digits. -/
def digitsVal (ds : List Char) : Nat :=
  ds.foldl (fun a c => 10 * a + (c.toNat - 48)) 0

/-- Embedding of C `atol`: skip leading whitespace, consume an optional
sign, then the maximal run of decimal digits; no digits yields 0. -/
def atol (s : String) : Int :=
  let cs := s.data.dropWhile isSpaceC
  match cs with
  | '-' :: rest => -(digitsVal (rest.takeWhile Char.isDigit) : Int)
  | '+' :: rest => (digitsVal (rest.takeWhile Char.isDigit) : Int)
  | _ => (digitsVal (cs.takeWhile Char.isDigit) : Int)

/-- One `%<width>s` conversion of `sscanf`: skip whitespace, then take at
most `width` non-whitespace characters; returns the token and the rest of
the input. -/
def scan_field (width : Nat) (cs : List Char) : List Char × List Char :=
  let rest := cs.dropWhile isSpaceC
  let word := (rest.takeWhile (fun c => !isSpaceC c)).take width
  (word, rest.drop word.length)

/-- The command parse of `client_handler` (server.c line 447):
`sscanf(client_message, "%31s %511s", command, remote_path)`.  Returns
`none` when no token converts (sscanf result < 1); a missing second token
leaves `remote_path` empty (the buffer was zeroed). -/
def client_handler_parse (msg : String) : Option (String × String) :=
  let r1 := scan_field 31 msg.data
  if r1.1.isEmpty then none
  else
    let r2 := scan_field 511 r1.2
    some (⟨r1.1⟩, ⟨r2.1⟩)

/-- The action `client_handler` (server.c lines 455-484) selects from the
parsed command line. -/
inductive ServerAction where
  | invalidCommand
  | missingPath (command : String)
  | doWrite (remote_path : String)
  | doGet (remote_path : String)
  | doRm (remote_path : String)
  | unknownCommand (command : String)
deriving DecidableEq

/-- Embedding of the dispatch chain of `client_handler`.  The Boolean
records whether the branch taken initiates a server shutdown: no branch
of `client_handler` does, and `main`'s accept loop (server.c lines
537-566) is an unconditional `while (1)`, so the flag is `false` on every
path. -/
def client_handler_dispatch (msg : String) : ServerAction × Bool :=
  match client_handler_parse msg with
  | none => (.invalidCommand, false)
  | some (command, remote_path) =>
    if command = "WRITE" then
      (if remote_path = "" then (.missingPath command, false) else (.doWrite remote_path, false))
    else if command = "GET" then
      (if remote_path = "" then (.missingPath command, false) else (.doGet remote_path, false))
    else if command = "RM" then
      (if remote_path = "" then (.missingPath command, false) else (.doRm remote_path, false))
    else (.unknownCommand command, false)

/-- The immediate error response of the dispatch chain, when the selected
branch replies without invoking a handler. -/
def dispatch_response : ServerAction → Option String
  | .invalidCommand => some "ERROR: Invalid command format"
  | .missingPath _ => some "ERROR: Missing remote path"
  | .unknownCommand c => some ("ERROR: Unknown command " ++ quoted c)
  | _ => none

/-- Result of one WRITE exchange. -/
structure WriteOut where
  fs : FileSys
  locks : LockTable
  sent : List String
  ret : Int
deriving DecidableEq

/-- The `recv` loop of `handle_write_command` (server.c lines 245-255):
accumulate incoming chunks into the file until at least `file_size` bytes
have arrived; a failed `recv` (no further chunk, or an empty one) aborts.
Returns the bytes written so far and whether the loop completed. -/
def recv_loop (file_size : Int) : List Content → Int → Content → Content × Bool
  | [], bytes_received, acc =>
    if bytes_received < file_size then (acc, false) else (acc, true)
  | c :: rest, bytes_received, acc =>
    if bytes_received < file_size then
      if c.length = 0 then (acc, false)
      else recv_loop file_size rest (bytes_received + c.length) (acc ++ c)
    else (acc, true)

/-- Embedding of `handle_write_command` (server.c lines 178-266).
`size_msg` is the size message received after `READY` (`none` models a
failed `recv`); `chunks` are the data `recv` results.  Directory
preparation always succeeds (the model stores no directories).  The
result is `none` only if `save_version`'s probe were to run forever,
which `get_next_version_isSome` rules out. -/
def handle_write_command (fs : FileSys) (locks : LockTable) (remote_path : String)
    (size_msg : Option String) (chunks : List Content) : Option WriteOut :=
  let fp := full_path remote_path
  match size_msg with
  | none => some ⟨fs, locks, ["READY"], -1⟩
  | some sz =>
    let file_size := atol sz
    match get_file_lock locks fp with
    | none => some ⟨fs, locks, ["READY", "SIZE_OK", "ERROR: Server busy"], -1⟩
    | some (_, locks1) =>
      match save_version fs fp with
      | none => none
      | some fs1 =>
        let r := recv_loop file_size chunks 0 []
        let fs2 := writeFile (writeFile fs1 fp []) fp r.1
        if r.2 then
          some ⟨fs2, locks1, ["READY", "SIZE_OK", "SUCCESS: File written successfully"], 0⟩
        else
          some ⟨fs2, locks1, ["READY", "SIZE_OK"], -1⟩

/-- Does `hay` contain `needle` as a contiguous run?  Models C `strstr`. -/
def containsRun (needle : List Char) : List Char → Bool
  | [] => needle.isEmpty
  | c :: cs => List.isPrefixOf needle (c :: cs) || containsRun needle cs

/-- Result of one GET exchange: the control messages sent, the data chunks
streamed, and the C return code. -/
structure GetOut where
  locks : LockTable
  sent : List String
  chunks : List Content
  ret : Int
deriving DecidableEq

/-- The send loop of `handle_get_command` (server.c lines 332-350),
parameterised by what the file yields (`file`) and by the transport
(`send_ok i` is whether the i-th `send` succeeds).  Each round reads
`min(BUFFER_SIZE, file_size - bytes_sent)` bytes; a zero-byte read
breaks out of the loop (falling through to the return-0 epilogue); a
failed send returns -1.  The C loop is bounded by `file_size`, which the
fuel argument mirrors exactly: fuel `remaining` can never be exhausted
before `remaining` reaches 0, since every round consumes at least one
byte of `remaining`.  Returns (chunks sent, bytes sent, return code). -/
def send_loop (file : Content) (send_ok : Nat → Bool) :
    Nat → Nat → Nat → Nat → List Content × Nat × Int
  | 0, _, _, _ => ([], 0, 0)
  | fuel + 1, pos, remaining, call =>
    if remaining = 0 then ([], 0, 0)
    else
      let chunk := (file.drop pos).take (min BUFFER_SIZE remaining)
      if chunk.length = 0 then ([], 0, 0)
      else
        if send_ok call then
          let r := send_loop file send_ok fuel (pos + chunk.length) (remaining - chunk.length) (call + 1)
          (chunk :: r.1, chunk.length + r.2.1, r.2.2)
        else ([], 0, -1)

/-- The send phase of GET on a file that yields `file` when the announced
size is `file_size` (st_size from the preceding `stat`). -/
def get_send_phase (file : Content) (file_size : Nat) (send_ok : Nat → Bool) :
    List Content × Nat × Int :=
  send_loop file send_ok file_size 0 file_size 0

/-- Embedding of `handle_get_command` (server.c lines 269-358).
`ready_msg` is the client's reply to the size announcement (`none` models
a failed `recv`). -/
def handle_get_command (fs : FileSys) (locks : LockTable) (remote_path : String)
    (ready_msg : Option String) (send_ok : Nat → Bool) : GetOut :=
  let fp := full_path remote_path
  match get_file_lock locks fp with
  | none => ⟨locks, ["ERROR: Server busy"], [], -1⟩
  | some (_, locks1) =>
    match lookupFile fs fp with
    | none => ⟨locks1, ["ERROR: File not found " ++ quoted remote_path], [], -1⟩
    | some content =>
      let file_size := content.length
      let sent0 := ["SIZE " ++ Nat.repr file_size]
      match ready_msg with
      | none => ⟨locks1, sent0, [], -1⟩
      | some r =>
        if containsRun "READY".data r.data then
          let out := send_loop content send_ok file_size 0 file_size 0
          ⟨locks1, sent0, out.1, out.2.2⟩
        else ⟨locks1, sent0, [], -1⟩

/-- The synchronisation events of the RM flow, in program order. -/
inductive REvent where
  | lockMutex (slot : Nat)
  | unlockMutex (slot : Nat)
  | forgetEntry (path : String)
deriving DecidableEq

/-- Result of one RM exchange, with the trace of lock events. -/
structure RmOut where
  fs : FileSys
  locks : LockTable
  sent : List String
  events : List REvent
  ret : Int
deriving DecidableEq

/-- Embedding of `handle_rm_command` (server.c lines 361-420) for regular
files (the model stores no directories, so the `S_ISDIR` branch is
vacuous).  The event trace mirrors the program order of
`pthread_mutex_lock(file_mutex)` (line 375),
`pthread_mutex_unlock(file_mutex)` (lines 378/389/404/413) and
`release_file_lock(full_path)` (line 414). -/
def handle_rm_command (fs : FileSys) (locks : LockTable) (remote_path : String) : RmOut :=
  let fp := full_path remote_path
  match get_file_lock locks fp with
  | none => ⟨fs, locks, ["ERROR: Server busy"], [], -1⟩
  | some (i, locks1) =>
    match lookupFile fs fp with
    | none =>
      ⟨fs, locks1, ["ERROR: Path not found " ++ quoted remote_path],
        [.lockMutex i, .unlockMutex i], -1⟩
    | some _ =>
      let fs1 := unlinkFile fs fp
      let locks2 := release_file_lock locks1 fp
      ⟨fs1, locks2, ["SUCCESS: Removed " ++ quoted remote_path],
        [.lockMutex i, .unlockMutex i, .forgetEntry fp], 0⟩

/-!
Supporting lemmas for the claim theorems.
-/

theorem find_inuse_idx_of_all_ne (p : String) (t : LockTable)
    (h : ∀ e ∈ t, e.filepath ≠ p) : find_inuse_idx p t = none := by
  induction t with
  | nil => rfl
  | cons a rest ih =>
    simp only [find_inuse_idx]
    rw [if_neg (fun hc => h a (List.mem_cons_self a rest) hc.2)]
    rw [ih (fun e he => h e (List.mem_cons_of_mem a he))]
    rfl

theorem find_free_idx_of_all_inuse (t : LockTable)
    (h : ∀ e ∈ t, e.in_use = true) : find_free_idx t = none := by
  induction t with
  | nil => rfl
  | cons a rest ih =>
    simp only [find_free_idx]
    rw [if_neg (by rw [h a (List.mem_cons_self a rest)]; simp)]
    rw [ih (fun e he => h e (List.mem_cons_of_mem a he))]
    rfl

theorem get_file_lock_full (p : String) (t : LockTable)
    (hfull : ∀ e ∈ t, e.in_use = true)
    (hnew : ∀ e ∈ t, e.filepath ≠ p) : get_file_lock t p = none := by
  simp only [get_file_lock, find_inuse_idx_of_all_ne p t hnew,
    find_free_idx_of_all_inuse t hfull]

theorem get_file_lock_ne_none (t : LockTable) (p : String)
    (h : get_file_lock t p ≠ none) : ∃ i u, get_file_lock t p = some (i, u) := by
  match hg : get_file_lock t p with
  | none => exact absurd hg h
  | some (i, u) => exact ⟨i, u, rfl⟩

theorem probe_version_ge (fs : FileSys) (p : String) :
    ∀ (fuel start N : Nat), probe_version fs p fuel start = some N → start ≤ N := by
  intro fuel
  induction fuel with
  | zero => intro start N h; simp [probe_version] at h
  | succ fuel ih =>
    intro start N h
    simp only [probe_version] at h
    by_cases hc : lookupFile fs (verName p start) = none
    · rw [if_pos hc] at h
      cases h
      omega
    · rw [if_neg hc] at h
      have := ih (start + 1) N h
      omega

theorem save_version_isSome (fs : FileSys) (p : String) :
    ∃ fs1, save_version fs p = some fs1 := by
  simp only [save_version]
  by_cases h : lookupFile fs p = none
  · rw [if_pos h]; exact ⟨fs, rfl⟩
  · rw [if_neg h]
    have := get_next_version_isSome fs p
    match hg : get_next_version fs p with
    | none => rw [hg] at this; simp at this
    | some v => exact ⟨_, rfl⟩

theorem recv_loop_single (c : Content) :
    recv_loop (c.length : Int) [c] 0 [] = (c, true) := by
  by_cases h : c = []
  · subst h; decide
  · have hlen : 0 < c.length := List.length_pos.mpr h
    simp only [recv_loop]
    rw [if_pos (show (0 : Int) < (c.length : Int) by exact_mod_cast hlen),
      if_neg (show ¬(c.length = 0) by omega),
      if_neg (show ¬((0 : Int) + (c.length : Int) < (c.length : Int)) by omega)]
    simp

/-- The success path of one WRITE of a single data chunk. -/
theorem handle_write_success (fs : FileSys) (locks : LockTable) (remote_path : String)
    (sz : String) (c : Content) (i : Nat) (locks1 : LockTable) (fs1 : FileSys)
    (hl : get_file_lock locks (full_path remote_path) = some (i, locks1))
    (hsv : save_version fs (full_path remote_path) = some fs1)
    (hsz : atol sz = (c.length : Int)) :
    handle_write_command fs locks remote_path (some sz) [c] =
      some ⟨writeFile fs1 (full_path remote_path) c, locks1,
        ["READY", "SIZE_OK", "SUCCESS: File written successfully"], 0⟩ := by
  simp only [handle_write_command, hl, hsv, hsz, recv_loop_single, writeFile_writeFile]
  rfl

theorem take_min_length {α : Type} (l : List α) (n : Nat) :
    l.take (min n l.length) = l.take n := by
  by_cases h : n ≤ l.length
  · rw [Nat.min_eq_left h]
  · rw [Nat.min_eq_right (by omega), List.take_length, List.take_of_length_le (by omega)]

theorem nodup_subset_length {α : Type} [DecidableEq α] {l1 l2 : List α}
    (h1 : l1.Nodup) (h2 : l1 ⊆ l2) : l1.length ≤ l2.length := by
  have e1 : l1.toFinset.card = l1.length := List.toFinset_card_of_nodup h1
  have e2 : l1.toFinset ⊆ l2.toFinset := by
    intro x hx
    rw [List.mem_toFinset] at hx ⊢
    exact h2 hx
  have e3 := Finset.card_le_card e2
  have e4 := List.toFinset_card_le l2
  omega

/-- With a transport that always succeeds, the send loop streams
min(remaining, bytes available) bytes, returns 0, and the streamed chunks
concatenate to exactly the first `remaining` bytes on offer. -/
theorem send_loop_all_ok (file : Content) (send_ok : Nat → Bool)
    (hok : ∀ i, send_ok i = true) :
    ∀ (fuel pos remaining call : Nat), remaining ≤ fuel →
      (send_loop file send_ok fuel pos remaining call).1.flatten =
        (file.drop pos).take remaining ∧
      (send_loop file send_ok fuel pos remaining call).2.1 =
        min remaining (file.length - pos) ∧
      (send_loop file send_ok fuel pos remaining call).2.2 = 0 := by
  intro fuel
  induction fuel with
  | zero =>
    intro pos remaining call hle
    have : remaining = 0 := by omega
    subst this
    simp [send_loop]
  | succ fuel ih =>
    intro pos remaining call hle
    by_cases hr : remaining = 0
    · subst hr; simp [send_loop]
    · simp only [send_loop]
      rw [if_neg hr]
      have hklen : ((file.drop pos).take (min BUFFER_SIZE remaining)).length =
          min (min BUFFER_SIZE remaining) (file.length - pos) := by
        rw [List.length_take, List.length_drop]
      by_cases hk : ((file.drop pos).take (min BUFFER_SIZE remaining)).length = 0
      · rw [if_pos hk]
        have havail : file.length - pos = 0 := by
          have hB : 0 < BUFFER_SIZE := by decide
          omega
        have hdrop : file.drop pos = [] := by
          apply List.eq_nil_of_length_eq_zero
          rw [List.length_drop]
          exact havail
        refine ⟨?_, by show (0 : Nat) = min remaining (file.length - pos); omega, rfl⟩
        rw [hdrop]
        simp
      · rw [if_neg hk, hok call, if_pos rfl]
        have hkpos : 0 < ((file.drop pos).take (min BUFFER_SIZE remaining)).length := by omega
        obtain ⟨ih1, ih2, ih3⟩ := ih (pos + ((file.drop pos).take (min BUFFER_SIZE remaining)).length)
          (remaining - ((file.drop pos).take (min BUFFER_SIZE remaining)).length)
          (call + 1) (by omega)
        refine ⟨?_, ?_, ih3⟩
        · show ((file.drop pos).take (min BUFFER_SIZE remaining)) ++ _ = _
          rw [ih1]
          have hchunk : (file.drop pos).take (min BUFFER_SIZE remaining) =
              (file.drop pos).take ((file.drop pos).take (min BUFFER_SIZE remaining)).length := by
            rw [hklen]
            rw [show List.length file - pos = (file.drop pos).length from (List.length_drop _ _).symm]
            rw [take_min_length]
          have hdd : file.drop (pos + ((file.drop pos).take (min BUFFER_SIZE remaining)).length) =
              (file.drop pos).drop ((file.drop pos).take (min BUFFER_SIZE remaining)).length := by
            rw [List.drop_drop]
          rw [hdd]
          have hkle : ((file.drop pos).take (min BUFFER_SIZE remaining)).length ≤ remaining := by
            rw [hklen]; omega
          conv_rhs => rw [show remaining = ((file.drop pos).take (min BUFFER_SIZE remaining)).length +
            (remaining - ((file.drop pos).take (min BUFFER_SIZE remaining)).length) from by omega]
          rw [List.take_add]
          congr 1
        · show ((file.drop pos).take (min BUFFER_SIZE remaining)).length + _ = _
          rw [ih2]
          rw [hklen]
          have hB : 0 < BUFFER_SIZE := by decide
          omega

/-- A transport failure at the k-th send, reached before the announced
byte count is exhausted, makes the send loop return -1. -/
theorem send_loop_err (file : Content) (send_ok : Nat → Bool) :
    ∀ (k fuel pos remaining call : Nat), remaining ≤ fuel →
      remaining ≤ file.length - pos →
      (∀ i, i < k → send_ok (call + i) = true) →
      send_ok (call + k) = false →
      k * BUFFER_SIZE < remaining →
      (send_loop file send_ok fuel pos remaining call).2.2 = -1 := by
  intro k
  induction k with
  | zero =>
    intro fuel pos remaining call hfuel hcover _hpre hfail hlt
    simp only [Nat.zero_mul] at hlt
    match fuel with
    | 0 => omega
    | fuel + 1 =>
      simp only [send_loop]
      rw [if_neg (by omega)]
      have hklen : ((file.drop pos).take (min BUFFER_SIZE remaining)).length =
          min (min BUFFER_SIZE remaining) (file.length - pos) := by
        rw [List.length_take, List.length_drop]
      have hB : 0 < BUFFER_SIZE := by decide
      rw [if_neg (by omega)]
      rw [show call + 0 = call by omega] at hfail
      rw [hfail]
      rfl
  | succ k ih =>
    intro fuel pos remaining call hfuel hcover hpre hfail hlt
    have hB : 0 < BUFFER_SIZE := by decide
    have hexp : (k + 1) * BUFFER_SIZE = k * BUFFER_SIZE + BUFFER_SIZE := by ring
    have hBlt : BUFFER_SIZE < remaining := by
      have : BUFFER_SIZE ≤ (k + 1) * BUFFER_SIZE := by
        have : 1 ≤ k + 1 := by omega
        calc BUFFER_SIZE = 1 * BUFFER_SIZE := by omega
        _ ≤ (k + 1) * BUFFER_SIZE := Nat.mul_le_mul_right _ this
      omega
    match fuel with
    | 0 => omega
    | fuel + 1 =>
      simp only [send_loop]
      rw [if_neg (by omega)]
      have hklen : ((file.drop pos).take (min BUFFER_SIZE remaining)).length =
          min (min BUFFER_SIZE remaining) (file.length - pos) := by
        rw [List.length_take, List.length_drop]
      have hkval : ((file.drop pos).take (min BUFFER_SIZE remaining)).length = BUFFER_SIZE := by
        rw [hklen]; omega
      rw [if_neg (by omega)]
      rw [show send_ok call = true from by
        have := hpre 0 (by omega)
        rw [show call + 0 = call by omega] at this
        exact this]
      rw [if_pos rfl]
      show (send_loop file send_ok fuel _ _ _).2.2 = -1
      rw [hkval]
      exact ih fuel (pos + BUFFER_SIZE) (remaining - BUFFER_SIZE) (call + 1)
        (by omega) (by omega)
        (fun i hi => by rw [show call + 1 + i = call + (i + 1) by omega]; exact hpre (i + 1) (by omega))
        (by rw [show call + 1 + k = call + (k + 1) by omega]; exact hfail)
        (by omega)

instance tableInvDecidable (t : LockTable) : Decidable (tableInv t) :=
  inferInstanceAs (Decidable (inusePaths t).Nodup)

/-!
Claim theorems.
-/

set_option maxRecDepth 100000 in
/-- C1: the claim states that a successful RM of P removes P and every
backup P.v1..P.vK, so that a subsequent GET of any of them fails with a
not-found error.  The code does not do this: `handle_rm_command` calls
`unlink` on the primary path only and never probes for backups.  This
theorem evaluates the embedded handler on a store holding `a.txt` with
backups v1 and v2: the RM reports success and removes the primary, but
both backups survive, and a subsequent GET of `a.txt.v1` succeeds,
streaming the backup's content instead of replying not-found. -/
theorem rm_leaves_backups_behind :
    (handle_rm_command [(full_path "a.txt", [3]), (verName (full_path "a.txt") 1, [1]),
        (verName (full_path "a.txt") 2, [2])] init_file_locks "a.txt").ret = 0 ∧
    (handle_rm_command [(full_path "a.txt", [3]), (verName (full_path "a.txt") 1, [1]),
        (verName (full_path "a.txt") 2, [2])] init_file_locks "a.txt").sent =
      ["SUCCESS: Removed " ++ quoted "a.txt"] ∧
    (handle_rm_command [(full_path "a.txt", [3]), (verName (full_path "a.txt") 1, [1]),
        (verName (full_path "a.txt") 2, [2])] init_file_locks "a.txt").fs =
      [(verName (full_path "a.txt") 1, [1]), (verName (full_path "a.txt") 2, [2])] ∧
    (handle_get_command
      (handle_rm_command [(full_path "a.txt", [3]), (verName (full_path "a.txt") 1, [1]),
        (verName (full_path "a.txt") 2, [2])] init_file_locks "a.txt").fs
      (handle_rm_command [(full_path "a.txt", [3]), (verName (full_path "a.txt") 1, [1]),
        (verName (full_path "a.txt") 2, [2])] init_file_locks "a.txt").locks
      "a.txt.v1" (some "READY") (fun _ => true)).chunks = [[1]] ∧
    (handle_get_command
      (handle_rm_command [(full_path "a.txt", [3]), (verName (full_path "a.txt") 1, [1]),
        (verName (full_path "a.txt") 2, [2])] init_file_locks "a.txt").fs
      (handle_rm_command [(full_path "a.txt", [3]), (verName (full_path "a.txt") 1, [1]),
        (verName (full_path "a.txt") 2, [2])] init_file_locks "a.txt").locks
      "a.txt.v1" (some "READY") (fun _ => true)).ret = 0 := by
  decide

/-- C2: the claim states that on receiving `STOP` the dispatcher sends an
acknowledgment and the server then shuts down.  The dispatch chain of
`client_handler` has no STOP branch: the command falls through to the
unknown-command arm, the reply is `ERROR: Unknown command 'STOP'`, and no
branch initiates a shutdown (the accept loop of `main` is an
unconditional `while (1)`), which this evaluation records. -/
theorem stop_command_not_handled :
    client_handler_dispatch "STOP" = (ServerAction.unknownCommand "STOP", false) ∧
    dispatch_response (ServerAction.unknownCommand "STOP") =
      some ("ERROR: Unknown command " ++ quoted "STOP") := by
  decide

set_option maxRecDepth 100000 in
/-- C7: the claim states that the RM flow drops the lock-table entry
while the per-file mutex is still held and releases the mutex only
afterwards.  The code does the opposite: `handle_rm_command` executes
`pthread_mutex_unlock(file_mutex)` (line 413) and only then
`release_file_lock(full_path)` (line 414).  The event trace of the
embedded success path shows the unlock strictly before the forget. -/
theorem rm_unlocks_before_forget :
    (handle_rm_command [(full_path "b.txt", [9])] init_file_locks "b.txt").ret = 0 ∧
    (handle_rm_command [(full_path "b.txt", [9])] init_file_locks "b.txt").events =
      [REvent.lockMutex 0, REvent.unlockMutex 0, REvent.forgetEntry (full_path "b.txt")] := by
  decide

/-- C5: when every lock-table entry is in use (by pairwise distinct paths)
and none of them holds the requested path, `get_file_lock` returns no
handle at all, and the WRITE flow replies with the explicit
`ERROR: Server busy` terminal response. -/
theorem busy_rejection (fs : FileSys) (locks : LockTable) (remote_path size_msg : String)
    (chunks : List Content)
    (hinv : tableInv locks)
    (hfull : ∀ e ∈ locks, e.in_use = true)
    (hnew : ∀ e ∈ locks, e.filepath ≠ full_path remote_path) :
    get_file_lock locks (full_path remote_path) = none ∧
    handle_write_command fs locks remote_path (some size_msg) chunks =
      some ⟨fs, locks, ["READY", "SIZE_OK", "ERROR: Server busy"], -1⟩ := by
  have h := get_file_lock_full (full_path remote_path) locks hfull hnew
  refine ⟨h, ?_⟩
  simp only [handle_write_command, h]

set_option maxRecDepth 1000000 in
theorem busy_rejection_witness :
    get_file_lock ((List.range MAX_FILE_LOCKS).map (fun i => ⟨Nat.repr i, true⟩))
      (full_path "x.txt") = none ∧
    handle_write_command [] ((List.range MAX_FILE_LOCKS).map (fun i => ⟨Nat.repr i, true⟩))
      "x.txt" (some "5") [[1, 2, 3, 4, 5]] =
      some ⟨[], (List.range MAX_FILE_LOCKS).map (fun i => ⟨Nat.repr i, true⟩),
        ["READY", "SIZE_OK", "ERROR: Server busy"], -1⟩ :=
  busy_rejection [] ((List.range MAX_FILE_LOCKS).map (fun i => ⟨Nat.repr i, true⟩))
    "x.txt" "5" [[1, 2, 3, 4, 5]] (by decide) (by decide) (by decide)

/-- C9: the lock table never holds two in-use entries with the same path:
the invariant is preserved by every interleaving of acquire
(`get_file_lock`) and forget (`release_file_lock`) operations, and an
acquire for a path that already has an entry returns that entry's slot
(its mutex) with the table unchanged, rather than creating a second
entry. -/
theorem lock_table_one_entry_per_path (ops : List LockOp) (t : LockTable) (p : String)
    (hinv : tableInv t) :
    tableInv (apply_ops t ops) ∧
    (p ∈ inusePaths t →
      ∃ i, get_file_lock t p = some (i, t) ∧
        ∃ e, t[i]? = some e ∧ e.in_use = true ∧ e.filepath = p) :=
  ⟨apply_ops_preserves_inv ops t hinv, fun hmem => get_file_lock_existing t p hmem⟩

theorem lock_table_one_entry_per_path_witness :
    tableInv (apply_ops [⟨"", false⟩, ⟨"q", true⟩, ⟨"", false⟩]
      [LockOp.acquire "r", LockOp.acquire "q", LockOp.forget "q", LockOp.acquire "s"]) ∧
    ("q" ∈ inusePaths [⟨"", false⟩, ⟨"q", true⟩, ⟨"", false⟩] →
      ∃ i, get_file_lock [⟨"", false⟩, ⟨"q", true⟩, ⟨"", false⟩] "q" =
          some (i, [⟨"", false⟩, ⟨"q", true⟩, ⟨"", false⟩]) ∧
        ∃ e, [(⟨"", false⟩ : FileLock), ⟨"q", true⟩, ⟨"", false⟩][i]? = some e ∧
          e.in_use = true ∧ e.filepath = "q") :=
  lock_table_one_entry_per_path
    [LockOp.acquire "r", LockOp.acquire "q", LockOp.forget "q", LockOp.acquire "s"]
    [⟨"", false⟩, ⟨"q", true⟩, ⟨"", false⟩] "q" (by decide)

theorem recv_loop_nonpos (chunks : List Content) (fsz : Int) (h : fsz ≤ 0) :
    recv_loop fsz chunks 0 [] = ([], true) := by
  cases chunks with
  | nil => simp only [recv_loop]; rw [if_neg (by omega)]
  | cons c rest => simp only [recv_loop]; rw [if_neg (by omega)]

/-- C4: `get_next_version` probes `p.v1, p.v2, ...` sequentially and
returns the smallest N at least 1 whose backup name is absent; on a file
that exists, `save_version` renames the current content to exactly that
backup name, and on an absent file it is a success no-op. -/
theorem next_version_least_and_save_version (fs : FileSys) (p : String) (N : Nat)
    (h1 : 1 ≤ N)
    (h2 : ∀ k, 1 ≤ k → k < N → (lookupFile fs (verName p k)).isSome)
    (h3 : lookupFile fs (verName p N) = none) :
    get_next_version fs p = some N ∧
    (lookupFile fs p = none → save_version fs p = some fs) ∧
    ((lookupFile fs p).isSome → save_version fs p = some (renameFile fs p (verName p N))) := by
  have hbound : N ≤ fs.length + 1 := by
    have hnodup : ((List.range (N - 1)).map (fun k => verName p (k + 1))).Nodup := by
      refine List.Nodup.map ?_ (List.nodup_range _)
      intro a b hab
      have := verName_inj p hab
      omega
    have hsub : ((List.range (N - 1)).map (fun k => verName p (k + 1))) ⊆ fs.map Prod.fst := by
      intro x hx
      simp only [List.mem_map, List.mem_range] at hx
      obtain ⟨k, hk, rfl⟩ := hx
      exact lookupFile_isSome_mem fs _ (h2 (k + 1) (by omega) (by omega))
    have := nodup_subset_length hnodup hsub
    simp only [List.length_map, List.length_range] at this
    omega
  have hgnv : get_next_version fs p = some N :=
    probe_version_least fs p (fs.length + 1) 1 N h1 (by omega)
      (fun k hk1 hk2 => h2 k hk1 hk2) h3
  refine ⟨hgnv, ?_, ?_⟩
  · intro h
    simp only [save_version, h, if_true]
  · intro hs
    rw [Option.isSome_iff_ne_none] at hs
    simp only [save_version, hs, if_false, hgnv]

theorem next_version_least_and_save_version_witness :
    get_next_version [(verName "p" 1, [0])] "p" = some 2 ∧
    (lookupFile [(verName "p" 1, [0])] "p" = none →
      save_version [(verName "p" 1, [0])] "p" = some [(verName "p" 1, [0])]) ∧
    ((lookupFile [(verName "p" 1, [0])] "p").isSome →
      save_version [(verName "p" 1, [0])] "p" =
        some (renameFile [(verName "p" 1, [0])] "p" (verName "p" 2))) :=
  next_version_least_and_save_version [(verName "p" 1, [0])] "p" 2 (by omega)
    (fun k hk1 hk2 => by
      have hk : k = 1 := by omega
      subst hk
      decide)
    (by decide)

/-- C10: a WRITE whose size message does not parse as a positive decimal
integer (C `atol` yields 0 on non-numeric text) is not rejected: the
declared size becomes 0, the receive loop is skipped, the target file is
created or truncated to empty (any prior content having first been
saved as a numbered backup), and the terminal response is the
`SUCCESS:` one. -/
theorem write_nonnumeric_size_succeeds (fs : FileSys) (locks : LockTable)
    (remote_path size_msg : String) (chunks : List Content)
    (hsz : atol size_msg = 0)
    (hlock : get_file_lock locks (full_path remote_path) ≠ none) :
    ∃ (fs1 : FileSys) (locks1 : LockTable),
      save_version fs (full_path remote_path) = some fs1 ∧
      handle_write_command fs locks remote_path (some size_msg) chunks =
        some ⟨writeFile fs1 (full_path remote_path) [], locks1,
          ["READY", "SIZE_OK", "SUCCESS: File written successfully"], 0⟩ ∧
      lookupFile (writeFile fs1 (full_path remote_path) []) (full_path remote_path) =
        some [] ∧
      (∀ c, lookupFile fs (full_path remote_path) = some c →
        ∃ n, 1 ≤ n ∧ lookupFile (writeFile fs1 (full_path remote_path) [])
          (verName (full_path remote_path) n) = some c) := by
  obtain ⟨i, locks1, hl⟩ := get_file_lock_ne_none locks (full_path remote_path) hlock
  obtain ⟨fs1, hsv⟩ := save_version_isSome fs (full_path remote_path)
  refine ⟨fs1, locks1, hsv, ?_, lookupFile_writeFile_self _ _ _, ?_⟩
  · simp only [handle_write_command, hl, hsv, hsz,
      recv_loop_nonpos chunks 0 (by omega), writeFile_writeFile]
    rfl
  · intro c hc
    have hne : ¬(lookupFile fs (full_path remote_path) = none) := by rw [hc]; simp
    simp only [save_version, hne, if_false] at hsv
    have hiss := get_next_version_isSome fs (full_path remote_path)
    match hg : get_next_version fs (full_path remote_path) with
    | none => rw [hg] at hiss; simp at hiss
    | some v =>
      rw [hg] at hsv
      simp only [Option.some.injEq] at hsv
      have hv1 : 1 ≤ v := probe_version_ge fs (full_path remote_path) (fs.length + 1) 1 v hg
      refine ⟨v, hv1, ?_⟩
      rw [lookupFile_writeFile_ne _ _ _ _ (verName_ne_base _ v)]
      rw [← hsv]
      simp only [renameFile, hc]
      exact lookupFile_writeFile_self _ _ _

set_option maxRecDepth 100000 in
theorem write_nonnumeric_size_succeeds_witness :
    ∃ (fs1 : FileSys) (locks1 : LockTable),
      save_version [(full_path "w.txt", [5])] (full_path "w.txt") = some fs1 ∧
      handle_write_command [(full_path "w.txt", [5])] init_file_locks "w.txt"
          (some "abc") [[1, 2]] =
        some ⟨writeFile fs1 (full_path "w.txt") [], locks1,
          ["READY", "SIZE_OK", "SUCCESS: File written successfully"], 0⟩ ∧
      lookupFile (writeFile fs1 (full_path "w.txt") []) (full_path "w.txt") = some [] ∧
      (∀ c, lookupFile [(full_path "w.txt", [5])] (full_path "w.txt") = some c →
        ∃ n, 1 ≤ n ∧ lookupFile (writeFile fs1 (full_path "w.txt") [])
          (verName (full_path "w.txt") n) = some c) :=
  write_nonnumeric_size_succeeds [(full_path "w.txt", [5])] init_file_locks
    "w.txt" "abc" [[1, 2]] (by decide) (by decide)

/-- C3: starting from a store with neither P nor any P.vN, three
successful WRITEs of C1, C2, C3 to P leave P holding C3, P.v1 holding C1,
P.v2 holding C2, and no P.v3. -/
theorem versioning_monotonicity (fs : FileSys) (locks : LockTable)
    (remote_path s1 s2 s3 : String) (c1 c2 c3 : Content)
    (hs1 : atol s1 = (c1.length : Int))
    (hs2 : atol s2 = (c2.length : Int))
    (hs3 : atol s3 = (c3.length : Int))
    (hp : lookupFile fs (full_path remote_path) = none)
    (hv : ∀ n, 1 ≤ n → lookupFile fs (verName (full_path remote_path) n) = none)
    (hlock : get_file_lock locks (full_path remote_path) ≠ none) :
    ∃ (o1 o2 o3 : WriteOut),
      handle_write_command fs locks remote_path (some s1) [c1] = some o1 ∧ o1.ret = 0 ∧
      handle_write_command o1.fs o1.locks remote_path (some s2) [c2] = some o2 ∧ o2.ret = 0 ∧
      handle_write_command o2.fs o2.locks remote_path (some s3) [c3] = some o3 ∧ o3.ret = 0 ∧
      lookupFile o3.fs (full_path remote_path) = some c3 ∧
      lookupFile o3.fs (verName (full_path remote_path) 1) = some c1 ∧
      lookupFile o3.fs (verName (full_path remote_path) 2) = some c2 ∧
      lookupFile o3.fs (verName (full_path remote_path) 3) = none := by
  have hv1p := verName_ne_base (full_path remote_path) 1
  have hv2p := verName_ne_base (full_path remote_path) 2
  have hv3p := verName_ne_base (full_path remote_path) 3
  have hv12 : verName (full_path remote_path) 1 ≠ verName (full_path remote_path) 2 :=
    verName_ne_of_ne _ (by omega)
  have hv13 : verName (full_path remote_path) 1 ≠ verName (full_path remote_path) 3 :=
    verName_ne_of_ne _ (by omega)
  have hv32 : verName (full_path remote_path) 3 ≠ verName (full_path remote_path) 2 :=
    verName_ne_of_ne _ (by omega)
  obtain ⟨i, locks1, hl⟩ := get_file_lock_ne_none locks (full_path remote_path) hlock
  have hl2 : get_file_lock locks1 (full_path remote_path) = some (i, locks1) :=
    get_file_lock_stable locks (full_path remote_path) i locks1 hl
  -- first write
  have hsv1 : save_version fs (full_path remote_path) = some fs := by
    simp only [save_version, hp, if_true]
  have hw1 := handle_write_success fs locks remote_path s1 c1 i locks1 fs hl hsv1 hs1
  -- the store after the first write
  have hA_fp : lookupFile (writeFile fs (full_path remote_path) c1)
      (full_path remote_path) = some c1 := lookupFile_writeFile_self _ _ _
  have hA_v1 : lookupFile (writeFile fs (full_path remote_path) c1)
      (verName (full_path remote_path) 1) = none := by
    rw [lookupFile_writeFile_ne _ _ _ _ hv1p]
    exact hv 1 (by omega)
  -- second write: version 1 is free
  have hgnv2 : get_next_version (writeFile fs (full_path remote_path) c1)
      (full_path remote_path) = some 1 :=
    probe_version_least _ _ _ 1 1 (by omega) (by omega)
      (fun k hk1 hk2 => by omega) hA_v1
  have hsv2 : save_version (writeFile fs (full_path remote_path) c1)
      (full_path remote_path) =
      some (writeFile (unlinkFile (writeFile fs (full_path remote_path) c1)
        (full_path remote_path)) (verName (full_path remote_path) 1) c1) := by
    simp only [save_version, hA_fp, hgnv2, renameFile]
    rfl
  have hw2 := handle_write_success (writeFile fs (full_path remote_path) c1) locks1
    remote_path s2 c2 i locks1 _ hl2 hsv2 hs2
  -- the store after the second write
  have hC_fp : lookupFile (writeFile (writeFile (unlinkFile
      (writeFile fs (full_path remote_path) c1) (full_path remote_path))
      (verName (full_path remote_path) 1) c1) (full_path remote_path) c2)
      (full_path remote_path) = some c2 := lookupFile_writeFile_self _ _ _
  have hC_v1 : lookupFile (writeFile (writeFile (unlinkFile
      (writeFile fs (full_path remote_path) c1) (full_path remote_path))
      (verName (full_path remote_path) 1) c1) (full_path remote_path) c2)
      (verName (full_path remote_path) 1) = some c1 := by
    rw [lookupFile_writeFile_ne _ _ _ _ hv1p]
    exact lookupFile_writeFile_self _ _ _
  have hC_vn : ∀ n, 2 ≤ n → lookupFile (writeFile (writeFile (unlinkFile
      (writeFile fs (full_path remote_path) c1) (full_path remote_path))
      (verName (full_path remote_path) 1) c1) (full_path remote_path) c2)
      (verName (full_path remote_path) n) = none := by
    intro n hn
    rw [lookupFile_writeFile_ne _ _ _ _ (verName_ne_base _ n)]
    rw [lookupFile_writeFile_ne _ _ _ _ (verName_ne_of_ne _ (by omega : n ≠ 1))]
    rw [lookupFile_unlinkFile_ne _ _ _ (verName_ne_base _ n)]
    rw [lookupFile_writeFile_ne _ _ _ _ (verName_ne_base _ n)]
    exact hv n (by omega)
  -- third write: version 2 is free
  have hgnv3 : get_next_version (writeFile (writeFile (unlinkFile
      (writeFile fs (full_path remote_path) c1) (full_path remote_path))
      (verName (full_path remote_path) 1) c1) (full_path remote_path) c2)
      (full_path remote_path) = some 2 := by
    apply probe_version_least _ _ _ 1 2 (by omega) (by simp [writeFile])
      (fun k hk1 hk2 => by
        have hk : k = 1 := by omega
        subst hk
        rw [hC_v1]
        rfl)
      (hC_vn 2 (by omega))
  have hsv3 : save_version (writeFile (writeFile (unlinkFile
      (writeFile fs (full_path remote_path) c1) (full_path remote_path))
      (verName (full_path remote_path) 1) c1) (full_path remote_path) c2)
      (full_path remote_path) =
      some (writeFile (unlinkFile (writeFile (writeFile (unlinkFile
        (writeFile fs (full_path remote_path) c1) (full_path remote_path))
        (verName (full_path remote_path) 1) c1) (full_path remote_path) c2)
        (full_path remote_path)) (verName (full_path remote_path) 2) c2) := by
    simp only [save_version, hC_fp, hgnv3, renameFile]
    rfl
  have hw3 := handle_write_success _ locks1 remote_path s3 c3 i locks1 _ hl2 hsv3 hs3
  refine ⟨_, _, _, hw1, rfl, hw2, rfl, hw3, rfl, ?_, ?_, ?_, ?_⟩
  · exact lookupFile_writeFile_self _ _ _
  · show lookupFile (writeFile (writeFile (unlinkFile _ _) _ c2) _ c3) _ = some c1
    rw [lookupFile_writeFile_ne _ _ _ _ hv1p]
    rw [lookupFile_writeFile_ne _ _ _ _ hv12]
    rw [lookupFile_unlinkFile_ne _ _ _ hv1p]
    exact hC_v1
  · show lookupFile (writeFile (writeFile (unlinkFile _ _) _ c2) _ c3) _ = some c2
    rw [lookupFile_writeFile_ne _ _ _ _ hv2p]
    exact lookupFile_writeFile_self _ _ _
  · show lookupFile (writeFile (writeFile (unlinkFile _ _) _ c2) _ c3) _ = none
    rw [lookupFile_writeFile_ne _ _ _ _ hv3p]
    rw [lookupFile_writeFile_ne _ _ _ _ hv32]
    rw [lookupFile_unlinkFile_ne _ _ _ hv3p]
    exact hC_vn 3 (by omega)

set_option maxRecDepth 100000 in
theorem versioning_monotonicity_witness :
    ∃ (o1 o2 o3 : WriteOut),
      handle_write_command [] init_file_locks "f.txt" (some "1") [[7]] = some o1 ∧
        o1.ret = 0 ∧
      handle_write_command o1.fs o1.locks "f.txt" (some "1") [[8]] = some o2 ∧
        o2.ret = 0 ∧
      handle_write_command o2.fs o2.locks "f.txt" (some "1") [[9]] = some o3 ∧
        o3.ret = 0 ∧
      lookupFile o3.fs (full_path "f.txt") = some [9] ∧
      lookupFile o3.fs (verName (full_path "f.txt") 1) = some [7] ∧
      lookupFile o3.fs (verName (full_path "f.txt") 2) = some [8] ∧
      lookupFile o3.fs (verName (full_path "f.txt") 3) = none :=
  versioning_monotonicity [] init_file_locks "f.txt" "1" "1" "1" [7] [8] [9]
    (by decide) (by decide) (by decide) rfl (fun n _ => rfl) (by decide)

/-- C6: a successful WRITE of content C to P followed by a GET of P
announces size |C| and streams chunks that concatenate to exactly C. -/
theorem write_get_roundtrip (fs : FileSys) (locks : LockTable)
    (remote_path sz ready : String) (c : Content) (send_ok : Nat → Bool)
    (hsz : atol sz = (c.length : Int))
    (hlock : get_file_lock locks (full_path remote_path) ≠ none)
    (hready : containsRun "READY".data ready.data = true)
    (hok : ∀ i, send_ok i = true) :
    ∃ o : WriteOut,
      handle_write_command fs locks remote_path (some sz) [c] = some o ∧
      o.ret = 0 ∧
      (handle_get_command o.fs o.locks remote_path (some ready) send_ok).sent =
        ["SIZE " ++ Nat.repr c.length] ∧
      (handle_get_command o.fs o.locks remote_path (some ready) send_ok).chunks.flatten = c ∧
      (handle_get_command o.fs o.locks remote_path (some ready) send_ok).ret = 0 := by
  obtain ⟨i, locks1, hl⟩ := get_file_lock_ne_none locks (full_path remote_path) hlock
  obtain ⟨fs1, hsv⟩ := save_version_isSome fs (full_path remote_path)
  have hw := handle_write_success fs locks remote_path sz c i locks1 fs1 hl hsv hsz
  have hl2 := get_file_lock_stable locks (full_path remote_path) i locks1 hl
  have hself : lookupFile (writeFile fs1 (full_path remote_path) c)
      (full_path remote_path) = some c := lookupFile_writeFile_self _ _ _
  obtain ⟨hflat, hbytes, hret⟩ :=
    send_loop_all_ok c send_ok hok c.length 0 c.length 0 (by omega)
  refine ⟨_, hw, rfl, ?_, ?_, ?_⟩
  · show (handle_get_command (writeFile fs1 (full_path remote_path) c) locks1
      remote_path (some ready) send_ok).sent = _
    simp only [handle_get_command, hl2, hself, hready, if_true]
  · show (handle_get_command (writeFile fs1 (full_path remote_path) c) locks1
      remote_path (some ready) send_ok).chunks.flatten = c
    simp only [handle_get_command, hl2, hself, hready, if_true]
    rw [hflat]
    simp
  · show (handle_get_command (writeFile fs1 (full_path remote_path) c) locks1
      remote_path (some ready) send_ok).ret = 0
    simp only [handle_get_command, hl2, hself, hready, if_true]
    exact hret

set_option maxRecDepth 100000 in
theorem write_get_roundtrip_witness :
    ∃ o : WriteOut,
      handle_write_command [] init_file_locks "g.txt" (some "2") [[4, 5]] = some o ∧
      o.ret = 0 ∧
      (handle_get_command o.fs o.locks "g.txt" (some "READY") (fun _ => true)).sent =
        ["SIZE " ++ Nat.repr 2] ∧
      (handle_get_command o.fs o.locks "g.txt" (some "READY") (fun _ => true)).chunks.flatten =
        [4, 5] ∧
      (handle_get_command o.fs o.locks "g.txt" (some "READY") (fun _ => true)).ret = 0 :=
  write_get_roundtrip [] init_file_locks "g.txt" "2" "READY" [4, 5] (fun _ => true)
    (by decide) (by decide) (by decide) (fun _ => rfl)

/-- C8 counterexample: in the GET send phase, a chunk read that yields
zero bytes (announced size 5, file yields nothing) does not terminate the
operation as a failure: the loop `break`s and the handler falls through
to the return-0 success epilogue, having streamed 0 of the 5 announced
bytes — a partial success, contradicting the claim. -/
theorem send_phase_zero_read_partial_success :
    get_send_phase [] 5 (fun _ => true) = ([], 0, 0) ∧
    (get_send_phase [] 5 (fun _ => true)).2.2 ≠ -1 ∧
    (get_send_phase [] 5 (fun _ => true)).2.1 < 5 := by decide

/-- C8 (amended): the send phase streams exactly the announced n bytes
and completes with 0 when the file provides n bytes and every transport
send succeeds; a transport send failure reached before n bytes have moved
terminates the operation as a failure (-1); but a chunk read yielding
zero bytes ends the loop early with the operation completing as a
success (0), having sent only the bytes the file provided. -/
theorem send_phase_error_handling :
    (∀ (file : Content) (n : Nat) (send_ok : Nat → Bool),
      (∀ i, send_ok i = true) → n ≤ file.length →
        (get_send_phase file n send_ok).1.flatten = file.take n ∧
        (get_send_phase file n send_ok).2.1 = n ∧
        (get_send_phase file n send_ok).2.2 = 0) ∧
    (∀ (file : Content) (n : Nat) (send_ok : Nat → Bool) (k : Nat),
      (∀ i, i < k → send_ok i = true) → send_ok k = false →
      k * BUFFER_SIZE < n → n ≤ file.length →
        (get_send_phase file n send_ok).2.2 = -1) ∧
    (∀ (file : Content) (n : Nat) (send_ok : Nat → Bool),
      (∀ i, send_ok i = true) → file.length < n →
        (get_send_phase file n send_ok).2.2 = 0 ∧
        (get_send_phase file n send_ok).2.1 = file.length) := by
  refine ⟨?_, ?_, ?_⟩
  · intro file n send_ok hok hcover
    obtain ⟨hflat, hbytes, hret⟩ := send_loop_all_ok file send_ok hok n 0 n 0 (by omega)
    refine ⟨?_, ?_, hret⟩
    · rw [show get_send_phase file n send_ok = send_loop file send_ok n 0 n 0 from rfl, hflat]
      simp
    · rw [show get_send_phase file n send_ok = send_loop file send_ok n 0 n 0 from rfl, hbytes]
      omega
  · intro file n send_ok k hpre hfail hreach hcover
    exact send_loop_err file send_ok k n 0 n 0 (by omega) (by omega)
      (fun i hi => by rw [show (0 : Nat) + i = i by omega]; exact hpre i hi)
      (by rw [show (0 : Nat) + k = k by omega]; exact hfail) hreach
  · intro file n send_ok hok hshort
    obtain ⟨hflat, hbytes, hret⟩ := send_loop_all_ok file send_ok hok n 0 n 0 (by omega)
    refine ⟨hret, ?_⟩
    rw [show get_send_phase file n send_ok = send_loop file send_ok n 0 n 0 from rfl, hbytes]
    omega

theorem send_phase_error_handling_witness :
    (get_send_phase [1, 2] 2 (fun _ => true)).1.flatten = List.take 2 [1, 2] ∧
    (get_send_phase [1, 2] 2 (fun _ => false)).2.2 = -1 ∧
    (get_send_phase [1] 2 (fun _ => true)).2.2 = 0 :=
  ⟨(send_phase_error_handling.1 [1, 2] 2 (fun _ => true) (fun _ => rfl) (by decide)).1,
    send_phase_error_handling.2.1 [1, 2] 2 (fun _ => false) 0
      (fun i hi => absurd hi (Nat.not_lt_zero i)) rfl (by decide) (by decide),
    (send_phase_error_handling.2.2 [1] 2 (fun _ => true) (fun _ => rfl) (by decide)).1⟩
